import Mathlib

/-!
Shallow embedding of the computational core of `src/dashboard.py` (the
ebisim-dash dashboard) and verification of the specification's claims
about it.

The embedded parts are:
* the `functools.lru_cache`-based memoized invocation of
  `ebisim.basic_simulation` (`cached_basic_sim`, line 16),
* the data path of the `update_csevo` callback (lines 268-300): cache
  lookup with a blanket `try ... except` around it, and the normalization
  `res.N[cs, :] / res.N.sum(axis=0)` of the population matrix,
* `figure_to_data` (lines 34-35),
* the data path of the `update_distr` callback (lines 307-314), built on
  `np.interp`,
* the data path of the `update_highest` callback (lines 329-333), built on
  `np.argmax`.

Modelling conventions:
* Python floats are modelled as exact rationals; the result of a numpy
  elementwise division, which can produce non-finite values, is modelled
  by `FVal` (a finite rational, NaN, or a signed infinity), with `fdiv`
  giving IEEE-754 semantics of dividing finite values (0/0 is NaN, x/0 is
  a signed infinity).
* A Python exception is modelled with `Except`/`Option`: a function that
  can raise returns `Except E A` or `Option A`, and `none`/`error` means
  an exception propagated to the caller.
* The static `layout` dictionaries of the callbacks (titles, axis styling,
  log-scale ranges) are plot styling with no bearing on any claim and are
  not part of the embedded figures; a figure here is its `data` list.
* The downstream callbacks (`update_distr`, `update_highest`) are embedded
  on series whose values are rationals (the NaN-free case); what they do on
  a series containing NaN is an explicitly open question of the spec and
  outside every claim.
-/

set_option autoImplicit false

namespace EbisimDash

/-! ### Values produced by numpy elementwise division -/

/-- The value of one entry of a numpy array obtained by dividing finite
floats: a finite value (kept exact as a rational), NaN, or ±∞. -/
inductive FVal where
  | fin (q : ℚ)
  | nan
  | pinf
  | ninf
deriving DecidableEq

/-- `fdiv a b` is IEEE-754 division of the finite values `a` and `b`
(numpy `true_divide`): for `b ≠ 0` the exact quotient, `0/0 = NaN`,
and `a/0 = ±∞` according to the sign of `a ≠ 0`. -/
def fdiv (a b : ℚ) : FVal :=
  if b = 0 then
    if a = 0 then FVal.nan else if 0 < a then FVal.pinf else FVal.ninf
  else FVal.fin (a / b)

/-! ### Data model -/

/-- Result of `ebisim.basic_simulation`: the time grid `res.t` (length `T`)
and the population matrix `res.N` of shape `(S, T)`, row `cs` being the
population time series of charge state `cs`.  The solver's internals are an
external collaborator; only this shape is relied on. -/
structure SimResult where
  t : List ℚ
  N : List (List ℚ)
deriving DecidableEq

/-- Shape wellformedness of a `SimResult`: every row of `N` has one entry
per time point. -/
def SimResult.Wellformed (r : SimResult) : Prop :=
  ∀ row ∈ r.N, row.length = r.t.length

instance (r : SimResult) : Decidable r.Wellformed := by
  unfold SimResult.Wellformed; infer_instance

/-- One plotly line trace as built by `update_csevo`:
`{"x": ..., "y": ..., "name": str(cs) + "+", "type": "line"}`.
The `y` values live in `α` (`FVal` for the normalized populations). -/
structure Series (α : Type) where
  x : List ℚ
  y : List α
  name : String
deriving DecidableEq

/-- A plotly figure, reduced to its `data` list (the `layout` entry is
static styling, see the file docstring). -/
structure Figure (α : Type) where
  data : List (Series α)
deriving DecidableEq

/-- One plotly bar trace as built by `update_distr`/`update_highest`:
`{"x": list(range(len(v))), "y": v, "type": "bar"}` (no name). -/
structure BarSeries where
  x : List ℚ
  y : List ℚ
deriving DecidableEq

/-- A figure holding bar traces, reduced to its `data` list. -/
structure BarFigure where
  data : List BarSeries
deriving DecidableEq

/-! ### The memoized invoker: `functools.lru_cache(maxsize=128)`

`cached_basic_sim = lru_cache(maxsize=128)(ebisim.basic_simulation)`
(line 16).  The cache is an association list of key/value pairs ordered
most-recently-used first.  On a hit the entry moves to the front and the
wrapped function is not executed; on a miss the wrapped function runs —
if it raises, the exception propagates and the cache is untouched;
otherwise the result is inserted at the front and the least recently used
entry is dropped when the capacity is exceeded. -/

/-- Lookup in the cache's association list. -/
def cacheFind {K V : Type} [DecidableEq K] (c : List (K × V)) (k : K) : Option V :=
  match c with
  | [] => none
  | (k', v) :: rest => if k' = k then some v else cacheFind rest k

/-- Remove the entry with key `k` (keys are unique in a reachable cache). -/
def cacheErase {K V : Type} [DecidableEq K] (c : List (K × V)) (k : K) : List (K × V) :=
  c.filter (fun p => ! decide (p.1 = k))

/-- One call through `lru_cache(maxsize=cap)(f)`.  Returns the outcome
(value or propagated exception), the cache after the call, and whether the
wrapped function was executed. -/
def lruGet {K E V : Type} [DecidableEq K] (cap : Nat) (f : K → Except E V)
    (c : List (K × V)) (k : K) : Except E V × List (K × V) × Bool :=
  match cacheFind c k with
  | some v => (Except.ok v, (k, v) :: cacheErase c k, false)
  | none =>
    match f k with
    | Except.error e => (Except.error e, c, true)
    | Except.ok v => (Except.ok v, ((k, v) :: c).take cap, true)

/-- Wrap a pure function as a non-raising fallible one. -/
def exceptify {K V : Type} (f : K → V) : K → Except Empty V :=
  fun k => Except.ok (f k)

/-- Run a sequence of calls through the memoized invoker (pure underlying
function).  Returns the final cache, the list of keys whose call executed
the underlying function, and the list of returned values. -/
def lruRun {K V : Type} [DecidableEq K] (cap : Nat) (f : K → V) :
    List K → List (K × V) → List (K × V) × List K × List V
  | [], c => (c, [], [])
  | k :: ks, c =>
    match lruGet cap (exceptify f) c k with
    | (Except.error e, _, _) => e.elim
    | (Except.ok v, c', computed) =>
      let r := lruRun cap f ks c'
      (r.1, (if computed then k :: r.2.1 else r.2.1), v :: r.2.2)

/-! ### The `update_csevo` callback (lines 268-300) -/

/-- The argument tuple of `cached_basic_sim(int(z), j, e_kin, tmax,
dr_fwhm=dr_fwhm, CNI=cni)` — the cache key of the memoized invoker.
`functools.lru_cache` keys on the full tuple of positional and keyword
arguments; two keys are equal iff all components are equal. -/
structure SimKey where
  z : ℤ
  j : ℚ
  e_kin : ℚ
  tmax : ℚ
  dr_fwhm : ℚ
  cni : Bool
deriving DecidableEq

/-- `numSteps N` is `N.shape[1]`, the common length of the rows. -/
def numSteps (N : List (List ℚ)) : Nat := (N.headD []).length

/-- `colSums N` is `N.sum(axis=0)`: entry `j` is the sum of column `j`
over all rows (the total population at time step `j`). -/
def colSums (N : List (List ℚ)) : List ℚ :=
  (List.range (numSteps N)).map (fun j => (N.map (fun row => row.getD j 0)).sum)

/-- The data list built by `update_csevo` from a successful simulation:
for each `cs` in `range(res.N.shape[0])` a line trace with
`x = res.t`, `y = res.N[cs, :] / res.N.sum(axis=0)` (elementwise division,
see `fdiv`) and `name = str(cs) + "+"`.  This is the Population
Normalizer: the division is performed unconditionally, with no check of
the column sums. -/
def normalizedData (res : SimResult) : List (Series FVal) :=
  (List.range res.N.length).map (fun cs =>
    ⟨res.t, List.zipWith fdiv (res.N.getD cs []) (colSums res.N), toString cs ++ "+"⟩)

/-- The data path of `update_csevo(z, j, e_kin, dr_fwhm, tmax, cni)`:
`tmax /= 1000`; `cni = True if "Active" in cni else False`; then
`res = cached_basic_sim(...)` inside `try: ... except: res = None`, so any
exception from the simulation is swallowed and yields `res = None`; the
data list is built only `if res`.  The external `basic_simulation` is a
parameter; the function returns the figure, the cache after the call, and
whether the external simulation was executed. -/
def update_csevo (basic_simulation : SimKey → Except String SimResult)
    (cache : List (SimKey × SimResult)) (z : ℤ) (j e_kin dr_fwhm tmax : ℚ)
    (cni : List String) : Figure FVal × List (SimKey × SimResult) × Bool :=
  match lruGet 128 basic_simulation cache
      ⟨z, j, e_kin, tmax / 1000, dr_fwhm, decide ("Active" ∈ cni)⟩ with
  | (Except.error _, c', computed) => (⟨[]⟩, c', computed)
  | (Except.ok res, c', computed) => (⟨normalizedData res⟩, c', computed)

/-! ### `figure_to_data` (lines 34-35) -/

/-- `figure_to_data(figure)` returns `[(line["x"], line["y"]) for line in
figure["data"]]`. -/
def figure_to_data {α : Type} (figure : Figure α) : List (List ℚ × List α) :=
  figure.data.map (fun line => (line.x, line.y))

/-! ### `np.interp` and the `update_distr` callback (lines 307-314) -/

/-- Core of `np.interp` on the point list `(x0, y0) :: pts` (the sample
points, `x` strictly increasing in every use): walking the samples left to
right, a query `t ≤ x0` yields `y0` (this clamps `t < x[0]` to `y[0]` and
returns `y[i]` exactly at a grid point), a query inside `(x0, x1]` yields
the linear interpolant, and a query beyond the last sample yields the last
`y` (clamp high). -/
def interpFrom (t : ℚ) (x0 y0 : ℚ) : List (ℚ × ℚ) → ℚ
  | [] => y0
  | (x1, y1) :: rest =>
    if t ≤ x0 then y0
    else if t ≤ x1 then y0 + (t - x0) * (y1 - y0) / (x1 - x0)
    else interpFrom t x1 y1 rest

/-- `np.interp(t, xp, fp)`: `none` models the `ValueError` numpy raises
when the sample array is empty (or the lengths differ); otherwise the
clamped piecewise-linear interpolant of `interpFrom`. -/
def np_interp (t : ℚ) (xp fp : List ℚ) : Option ℚ :=
  if xp.length = fp.length then
    match xp.zip fp with
    | [] => none
    | (x0, y0) :: rest => some (interpFrom t x0 y0 rest)
  else none

/-- The data path of `update_distr(csevo, time)`: `time /= 1000`; for each
`(t, N)` in `figure_to_data(csevo)` one value `np.interp(time, t, N)`; the
result is a single bar trace with `x = list(range(len(distr)))` and
`y = distr`.  `none` models an exception escaping the callback. -/
def update_distr (csevo : Figure ℚ) (time : ℚ) : Option BarFigure :=
  match (figure_to_data csevo).mapM (fun p => np_interp (time / 1000) p.1 p.2) with
  | none => none
  | some distr => some ⟨[⟨(List.range distr.length).map (fun i => (i : ℚ)), distr⟩]⟩

/-! ### `np.argmax` and the `update_highest` callback (lines 329-333) -/

/-- Accumulator loop of `np.argmax`: `bi`/`best` are the index and value
of the running maximum, `i` the index of the head of the remaining list;
the running maximum is replaced only on a strictly greater value, so the
first occurrence of the maximum wins. -/
def argmaxGo (bi : Nat) (best : ℚ) (i : Nat) : List ℚ → Nat
  | [] => bi
  | v :: rest =>
    if best < v then argmaxGo i v (i + 1) rest else argmaxGo bi best (i + 1) rest

/-- `np.argmax(l)`: index of the first occurrence of the maximum; `none`
models the `ValueError` numpy raises on an empty array. -/
def np_argmax : List ℚ → Option Nat
  | [] => none
  | v :: rest => some (argmaxGo 0 v 1 rest)

/-- The Peak-Time Extractor applied to one series: `t[np.argmax(N)]`
(line 331).  `none` models an exception: `np.argmax` on an empty array, or
an index beyond `len(t)`. -/
def peakTime (t N : List ℚ) : Option ℚ :=
  (np_argmax N).bind (fun i => t.get? i)

/-- The data path of `update_highest(csevo)`:
`tmax = [t[np.argmax(N)] for (t, N) in figure_to_data(csevo)]`, returned
as a single bar trace with `x = list(range(len(tmax)))`, `y = tmax`. -/
def update_highest (csevo : Figure ℚ) : Option BarFigure :=
  match (figure_to_data csevo).mapM (fun p => peakTime p.1 p.2) with
  | none => none
  | some tmax => some ⟨[⟨(List.range tmax.length).map (fun i => (i : ℚ)), tmax⟩]⟩

/-! ### Two concurrent invocations with the same key

CPython's `functools.lru_cache` takes its internal lock (or relies on the
GIL's atomicity of dict operations) only around the cache lookup and the
cache store; the wrapped function itself runs outside any lock, and no
per-key "in flight" marker exists.  The interleaving model below captures
exactly that for two threads requesting the same key: a thread atomically
looks the key up (hit: it is done; miss: it proceeds to compute), then in
a separate step runs the computation and stores the result (the store
keeps an already present value, matching lru_cache's re-check on insert).
`count` counts executions of the underlying computation. -/

/-- Program counter of one thread calling the memoized invoker. -/
inductive ThreadPC (V : Type) where
  | start
  | missed
  | done (v : V)
deriving DecidableEq

/-- Shared cache slot for the contested key, the two thread states, and
the number of executions of the underlying computation. -/
structure ConcState (V : Type) where
  cache : Option V
  pc0 : ThreadPC V
  pc1 : ThreadPC V
  count : Nat
deriving DecidableEq

/-- One atomic step of a thread: from `start`, the cache lookup (hit goes
straight to `done`, miss to `missed`); from `missed`, the computation
`f ()` plus the store; a finished thread does nothing. -/
def threadStep {V : Type} (f : Unit → V) (pc : ThreadPC V) (cache : Option V)
    (count : Nat) : ThreadPC V × Option V × Nat :=
  match pc, cache with
  | ThreadPC.start, some v => (ThreadPC.done v, some v, count)
  | ThreadPC.start, none => (ThreadPC.missed, none, count)
  | ThreadPC.missed, some v => (ThreadPC.done (f ()), some v, count + 1)
  | ThreadPC.missed, none => (ThreadPC.done (f ()), some (f ()), count + 1)
  | ThreadPC.done v, c => (ThreadPC.done v, c, count)

/-- One scheduling step: the named thread (`false` = thread 0, `true` =
thread 1) performs its next atomic step on the shared state. -/
def stepOn {V : Type} (f : Unit → V) (s : ConcState V) (tid : Bool) : ConcState V :=
  match tid with
  | false =>
    ⟨(threadStep f s.pc0 s.cache s.count).2.1, (threadStep f s.pc0 s.cache s.count).1,
      s.pc1, (threadStep f s.pc0 s.cache s.count).2.2⟩
  | true =>
    ⟨(threadStep f s.pc1 s.cache s.count).2.1, s.pc0,
      (threadStep f s.pc1 s.cache s.count).1, (threadStep f s.pc1 s.cache s.count).2.2⟩

/-- Run a schedule (list of thread ids) from a state. -/
def runSched {V : Type} (f : Unit → V) : List Bool → ConcState V → ConcState V
  | [], s => s
  | tid :: rest, s => runSched f rest (stepOn f s tid)

/-- Observer: 1 once a thread has finished its call, 0 before. -/
def pcWeight {V : Type} : ThreadPC V → Nat
  | ThreadPC.done _ => 1
  | _ => 0

/-- Both threads about to call the invoker, cache empty for the key. -/
def concInit {V : Type} : ConcState V :=
  ⟨none, ThreadPC.start, ThreadPC.start, 0⟩

/-! ### Concrete instances used by witnesses and counterexamples -/

/-- A simulation collaborator stub that always raises. -/
def simBoom : SimKey → Except String SimResult :=
  fun _ => Except.error ("boom")

/-- A simulation collaborator stub that raises exactly for the
out-of-domain species 150 (`ebisim` has no element with Z = 150) and
succeeds otherwise. -/
def simFail150 : SimKey → Except String SimResult :=
  fun k => if k.z = 150 then Except.error ("invalid element") else Except.ok ⟨[], []⟩

/-- A pure simulation collaborator stub (used with a call-counting run). -/
def trivSim : SimKey → SimResult := fun _ => ⟨[], []⟩

/-- A family of pairwise distinct cache keys (distinct species). -/
def mkKey (n : Nat) : SimKey := ⟨n, 100, 5000, 200, 50, false⟩

/-- A simulation result whose population columns sum to zero at time
step 0 (no particles) and to a nonzero value at time step 1. -/
def resZeroStep : SimResult := ⟨[0, 1], [[0, 1], [0, 1]]⟩

/-- A simulation result with positive populations (nonzero column sums). -/
def resPos : SimResult := ⟨[0, 1], [[1, 3], [1, 1]]⟩

/-- Observer: the normalized value of charge state `cs` at time step `t`
in the figure produced by the Population Normalizer. -/
def normY (res : SimResult) (cs t : Nat) : FVal :=
  (((normalizedData res).getD cs ⟨[], [], ""⟩).y.getD t FVal.nan)

/-! ### Helper lemmas about the cache association list -/

theorem cacheFind_eq_none {K V : Type} [DecidableEq K] (c : List (K × V)) (k : K) :
    cacheFind c k = none ↔ k ∉ c.map Prod.fst := by
  induction c with
  | nil => simp [cacheFind]
  | cons p rest ih =>
    obtain ⟨k', v⟩ := p
    by_cases h : k' = k
    · subst h
      simp [cacheFind]
    · simp [cacheFind, h, ih, Ne.symm h]

theorem cacheFind_mem {K V : Type} [DecidableEq K] {c : List (K × V)} {k : K} {v : V}
    (h : cacheFind c k = some v) : (k, v) ∈ c := by
  induction c with
  | nil => simp [cacheFind] at h
  | cons p rest ih =>
    obtain ⟨k', v'⟩ := p
    by_cases hk : k' = k
    · subst hk
      simp [cacheFind] at h
      simp [h]
    · simp [cacheFind, hk] at h
      exact List.mem_cons_of_mem _ (ih h)

theorem cacheFind_cacheErase_ne {K V : Type} [DecidableEq K] (c : List (K × V))
    {k k' : K} (h : k ≠ k') : cacheFind (cacheErase c k') k = cacheFind c k := by
  induction c with
  | nil => rfl
  | cons p rest ih =>
    obtain ⟨k'', v⟩ := p
    by_cases hk : k'' = k'
    · subst hk
      have hne : k'' ≠ k := fun hc => h hc.symm
      unfold cacheErase
      rw [List.filter_cons_of_neg (by simp)]
      rw [show cacheFind ((k'', v) :: rest) k = cacheFind rest k from by
        simp [cacheFind, hne]]
      exact ih
    · unfold cacheErase
      rw [List.filter_cons_of_pos (by simp [hk])]
      by_cases hkk : k'' = k
      · subst hkk
        simp [cacheFind]
      · simp only [cacheFind, if_neg hkk]
        exact ih

theorem lruGet_miss_error {K E V : Type} [DecidableEq K] (cap : Nat)
    (f : K → Except E V) (c : List (K × V)) (k : K) (e : E)
    (hmiss : cacheFind c k = none) (herr : f k = Except.error e) :
    lruGet cap f c k = (Except.error e, c, true) := by
  unfold lruGet
  rw [hmiss, herr]

theorem lruGet_miss_ok {K E V : Type} [DecidableEq K] (cap : Nat)
    (f : K → Except E V) (c : List (K × V)) (k : K) (v : V)
    (hmiss : cacheFind c k = none) (hok : f k = Except.ok v) :
    lruGet cap f c k = (Except.ok v, ((k, v) :: c).take cap, true) := by
  unfold lruGet
  rw [hmiss, hok]

theorem lruGet_hit {K E V : Type} [DecidableEq K] (cap : Nat)
    (f : K → Except E V) (c : List (K × V)) (k : K) (v : V)
    (hhit : cacheFind c k = some v) :
    lruGet cap f c k = (Except.ok v, (k, v) :: cacheErase c k, false) := by
  unfold lruGet
  rw [hhit]

/-! ### Claims C2, C8, C10 -/

/-- C2, counterexample.  The claim says a failing simulation surfaces a
typed `SimulationError` to the caller "rather than returning an absent or
empty result indistinguishable from 'nothing computed yet'".  The code
(`update_csevo`, lines 273-279) swallows every exception with a blanket
`except:` and returns the figure `{"data": []}` — exactly the empty
result the claim rules out, with no error value of any type in sight:
the callback's return type carries no error channel at all. -/
theorem C2_counterexample :
    update_csevo simBoom [] 20 100 5000 50 200 [] = (⟨[]⟩, [], true) := by
  rfl

/-- C2, amended.  What does hold: a failure of the external simulation is
not cached — `lru_cache` stores nothing when the wrapped call raises, the
cache is unchanged, and a second identical call re-attempts the
computation (the run flag is `true` again) — but the caller swallows the
exception and returns the empty figure `⟨[]⟩` with the same shape as
"nothing computed yet", instead of surfacing a typed error. -/
theorem C2_failure_not_cached
    (sim : SimKey → Except String SimResult) (cache : List (SimKey × SimResult))
    (z : ℤ) (j e_kin dr_fwhm tmax : ℚ) (cni : List String) (e : String)
    (hmiss : cacheFind cache ⟨z, j, e_kin, tmax / 1000, dr_fwhm, decide ("Active" ∈ cni)⟩ = none)
    (herr : sim ⟨z, j, e_kin, tmax / 1000, dr_fwhm, decide ("Active" ∈ cni)⟩ = Except.error e) :
    update_csevo sim cache z j e_kin dr_fwhm tmax cni = (⟨[]⟩, cache, true) ∧
    (update_csevo sim (update_csevo sim cache z j e_kin dr_fwhm tmax cni).2.1
      z j e_kin dr_fwhm tmax cni).2.2 = true := by
  have h := lruGet_miss_error 128 sim cache _ e hmiss herr
  have h1 : update_csevo sim cache z j e_kin dr_fwhm tmax cni = (⟨[]⟩, cache, true) := by
    unfold update_csevo
    rw [h]
  refine ⟨h1, ?_⟩
  rw [h1]
  unfold update_csevo
  rw [h]

/-- C2, witness for the amended claim. -/
theorem C2_failure_not_cached_witness :
    (cacheFind ([] : List (SimKey × SimResult))
        ⟨20, 100, 5000, 200 / 1000, 50, decide ("Active" ∈ ([] : List String))⟩ = none ∧
      simBoom ⟨20, 100, 5000, 200 / 1000, 50, decide ("Active" ∈ ([] : List String))⟩ =
        Except.error ("boom")) ∧
    (update_csevo simBoom [] 20 100 5000 50 200 [] = (⟨[]⟩, [], true) ∧
      (update_csevo simBoom (update_csevo simBoom [] 20 100 5000 50 200 []).2.1
        20 100 5000 50 200 []).2.2 = true) :=
  ⟨⟨rfl, rfl⟩, C2_failure_not_cached simBoom [] 20 100 5000 50 200 [] ("boom") rfl rfl⟩

/-- C8, counterexample.  The claim says that for an out-of-domain input
such as species = 150 the Parameter Canonicalizer fails with
`InvalidParameterError` and "no call reaches the Invoker or external
collaborator".  The code has no validation at all: with species 150 the
callback invokes the memoized simulation (the run flag of the underlying
call is `true`), the collaborator's failure is swallowed, and the empty
figure is returned — no `InvalidParameterError` exists anywhere in the
program. -/
theorem C8_counterexample :
    (update_csevo simFail150 [] 150 100 5000 50 200 []).2.2 = true ∧
    update_csevo simFail150 [] 150 100 5000 50 200 [] = (⟨[]⟩, [], true) := by
  constructor <;> rfl

/-- C8, amended.  What does hold: `update_csevo` performs no domain
validation whatsoever — for every input (out-of-domain species included),
whenever the key is not cached the external collaborator is invoked, and
if the collaborator fails the callback returns the empty figure with the
cache unchanged, rather than failing with a typed parameter error. -/
theorem C8_no_validation
    (sim : SimKey → Except String SimResult) (cache : List (SimKey × SimResult))
    (z : ℤ) (j e_kin dr_fwhm tmax : ℚ) (cni : List String)
    (hmiss : cacheFind cache ⟨z, j, e_kin, tmax / 1000, dr_fwhm, decide ("Active" ∈ cni)⟩ = none) :
    (update_csevo sim cache z j e_kin dr_fwhm tmax cni).2.2 = true ∧
    (∀ e, sim ⟨z, j, e_kin, tmax / 1000, dr_fwhm, decide ("Active" ∈ cni)⟩ = Except.error e →
      update_csevo sim cache z j e_kin dr_fwhm tmax cni = (⟨[]⟩, cache, true)) := by
  constructor
  · unfold update_csevo lruGet
    rw [hmiss]
    rcases sim ⟨z, j, e_kin, tmax / 1000, dr_fwhm, decide ("Active" ∈ cni)⟩ with e | v <;> rfl
  · intro e herr
    unfold update_csevo
    rw [lruGet_miss_error 128 sim cache _ e hmiss herr]

/-- C8, witness for the amended claim, at the out-of-domain species 150
of the claim's own scenario. -/
theorem C8_no_validation_witness :
    (cacheFind ([] : List (SimKey × SimResult))
        ⟨150, 100, 5000, 200 / 1000, 50, decide ("Active" ∈ ([] : List String))⟩ = none) ∧
    ((update_csevo simFail150 [] 150 100 5000 50 200 []).2.2 = true ∧
      (∀ e, simFail150 ⟨150, 100, 5000, 200 / 1000, 50, decide ("Active" ∈ ([] : List String))⟩ =
          Except.error e →
        update_csevo simFail150 [] 150 100 5000 50 200 [] = (⟨[]⟩, [], true))) :=
  ⟨rfl, C8_no_validation simFail150 [] 150 100 5000 50 200 [] rfl⟩

/-- C10: when the simulation call fails (for any cause), the produced
figure's data is the empty list, and both downstream callbacks applied to
a figure with an empty data list return a figure with a single bar trace
whose `x` and `y` are both empty, raising no exception. -/
theorem C10_empty_pipeline
    (sim : SimKey → Except String SimResult) (cache : List (SimKey × SimResult))
    (z : ℤ) (j e_kin dr_fwhm tmax : ℚ) (cni : List String) (e : String)
    (herr : (lruGet 128 sim cache
        ⟨z, j, e_kin, tmax / 1000, dr_fwhm, decide ("Active" ∈ cni)⟩).1 = Except.error e) :
    (update_csevo sim cache z j e_kin dr_fwhm tmax cni).1 = ⟨[]⟩ ∧
    (∀ time : ℚ, update_distr ⟨[]⟩ time = some ⟨[⟨[], []⟩]⟩) ∧
    update_highest ⟨[]⟩ = some ⟨[⟨[], []⟩]⟩ := by
  refine ⟨?_, fun time => rfl, rfl⟩
  unfold update_csevo
  rcases hL : lruGet 128 sim cache
      ⟨z, j, e_kin, tmax / 1000, dr_fwhm, decide ("Active" ∈ cni)⟩ with ⟨r, c', b⟩
  rw [hL] at herr
  simp only at herr
  subst herr
  rfl

/-- C10, witness. -/
theorem C10_empty_pipeline_witness :
    ((lruGet 128 simBoom []
        ⟨20, 100, 5000, 200 / 1000, 50, decide ("Active" ∈ ([] : List String))⟩).1 =
      Except.error ("boom")) ∧
    ((update_csevo simBoom [] 20 100 5000 50 200 []).1 = ⟨[]⟩ ∧
      (∀ time : ℚ, update_distr ⟨[]⟩ time = some ⟨[⟨[], []⟩]⟩) ∧
      update_highest ⟨[]⟩ = some ⟨[⟨[], []⟩]⟩) :=
  ⟨rfl, C10_empty_pipeline simBoom [] 20 100 5000 50 200 [] ("boom") rfl⟩

/-! ### Claims C4, C5: the Population Normalizer -/

theorem zipWith_getD {α β γ : Type} (f : α → β → γ) (as : List α) (bs : List β)
    (i : Nat) (da : α) (db : β) (dc : γ) (ha : i < as.length) (hb : i < bs.length) :
    (List.zipWith f as bs).getD i dc = f (as.getD i da) (bs.getD i db) := by
  induction as generalizing bs i with
  | nil => simp at ha
  | cons a as ih =>
    cases bs with
    | nil => simp at hb
    | cons b bs =>
      cases i with
      | zero => simp
      | succ i =>
        simp only [List.zipWith_cons_cons, List.getD_cons_succ]
        exact ih bs i (by simpa using ha) (by simpa using hb)

theorem normalizedData_length (res : SimResult) :
    (normalizedData res).length = res.N.length := by
  simp [normalizedData]

theorem colSums_length (N : List (List ℚ)) : (colSums N).length = numSteps N := by
  simp [colSums]

theorem colSums_getD (N : List (List ℚ)) (t : Nat) (ht : t < numSteps N) :
    (colSums N).getD t 0 = (N.map (fun row => row.getD t 0)).sum := by
  rw [List.getD_eq_getElem _ _ (by simpa [colSums_length] using ht)]
  simp [colSums]

theorem numSteps_eq (res : SimResult) (hwf : res.Wellformed) (hne : res.N ≠ []) :
    numSteps res.N = res.t.length := by
  cases hN : res.N with
  | nil => exact absurd hN hne
  | cons row rest =>
    have : row ∈ res.N := by rw [hN]; exact List.mem_cons_self _ _
    simpa [numSteps, hN] using hwf row this

theorem rowAt_length (res : SimResult) (hwf : res.Wellformed) {cs : Nat}
    (hcs : cs < res.N.length) : (res.N.getD cs []).length = res.t.length := by
  rw [List.getD_eq_getElem _ _ hcs]
  exact hwf _ (List.getElem_mem _)

/-- The value of the normalized figure at charge state `cs`, time step
`t` is exactly the elementwise division the code performs. -/
theorem normY_eq (res : SimResult) (hwf : res.Wellformed) {cs t : Nat}
    (hcs : cs < res.N.length) (ht : t < res.t.length) :
    normY res cs t = fdiv ((res.N.getD cs []).getD t 0) ((colSums res.N).getD t 0) := by
  have hne : res.N ≠ [] := by
    intro h
    rw [h] at hcs
    simp at hcs
  have hb : cs < (normalizedData res).length := by
    rw [normalizedData_length]
    exact hcs
  have houter : (normalizedData res).getD cs ⟨[], [], ""⟩ =
      ⟨res.t, List.zipWith fdiv (res.N.getD cs []) (colSums res.N), toString cs ++ "+"⟩ := by
    rw [List.getD_eq_getElem _ _ hb]
    simp [normalizedData]
  unfold normY
  rw [houter]
  show (List.zipWith fdiv (res.N.getD cs []) (colSums res.N)).getD t FVal.nan = _
  exact zipWith_getD fdiv _ _ t 0 0 FVal.nan
    (by rw [rowAt_length res hwf hcs]; exact ht)
    (by rw [colSums_length, numSteps_eq res hwf hne]; exact ht)

theorem sum_map_div (l : List (List ℚ)) (g : List ℚ → ℚ) (S : ℚ) :
    (l.map (fun a => g a / S)).sum = (l.map g).sum / S := by
  induction l with
  | nil => simp
  | cons a l ih => simp [ih, add_div]

/-- C4, counterexample.  The claim says the Normalizer checks the column
sum before dividing and fails with `NormalizationError` on a zero sum.
On a result whose populations at time step 0 are all zero, the code
performs the division anyway: the figure is produced with `NaN` (`0/0`)
as the value of every species at step 0, and no error of any kind is
raised (the normalizer's type has no error outcome at all). -/
theorem C4_counterexample :
    normalizedData resZeroStep =
      [⟨[0, 1], [FVal.nan, FVal.fin (1 / 2)], "0+"⟩,
       ⟨[0, 1], [FVal.nan, FVal.fin (1 / 2)], "1+"⟩] := by
  norm_num [normalizedData, resZeroStep, colSums, numSteps, fdiv, List.range_succ]
  exact ⟨by decide, by decide⟩

/-- C4, amended.  What does hold: the normalizer divides unconditionally
— every series is still produced in full (no crash, no abort of the
series), and at a time step whose column sum is zero each species' value
is the IEEE result of dividing by zero (NaN for a zero numerator, ±∞
otherwise), never a finite value and never an error. -/
theorem C4_div_unchecked (res : SimResult) (hwf : res.Wellformed) (t : Nat)
    (ht : t < res.t.length) (hz : (colSums res.N).getD t 0 = 0) :
    (normalizedData res).length = res.N.length ∧
    ∀ cs, cs < res.N.length →
      normY res cs t = fdiv ((res.N.getD cs []).getD t 0) 0 ∧
      ∀ q : ℚ, normY res cs t ≠ FVal.fin q := by
  refine ⟨normalizedData_length res, fun cs hcs => ?_⟩
  have h := normY_eq res hwf hcs ht
  rw [hz] at h
  refine ⟨h, fun q => ?_⟩
  rw [h]
  unfold fdiv
  rw [if_pos rfl]
  split_ifs <;> simp

/-- C4, witness for the amended claim. -/
theorem C4_div_unchecked_witness :
    (resZeroStep.Wellformed ∧ 0 < resZeroStep.t.length ∧
      (colSums resZeroStep.N).getD 0 0 = 0) ∧
    ((normalizedData resZeroStep).length = resZeroStep.N.length ∧
      ∀ cs, cs < resZeroStep.N.length →
        normY resZeroStep cs 0 = fdiv ((resZeroStep.N.getD cs []).getD 0 0) 0 ∧
        ∀ q : ℚ, normY resZeroStep cs 0 ≠ FVal.fin q) :=
  ⟨⟨by decide, by decide, by norm_num [resZeroStep, colSums, numSteps, List.range_succ]⟩,
    C4_div_unchecked resZeroStep (by decide) 0 (by decide)
      (by norm_num [resZeroStep, colSums, numSteps, List.range_succ])⟩

/-- C5: at every time step `t` whose column sum is nonzero, the
normalizer's output value for species `cs` is exactly
`population[cs][t] / Σ_species population[·][t]`, and the normalized
values across species at `t` sum to exactly 1 (the embedding works in ℚ,
so the floating-point tolerance of the spec is exact equality here). -/
theorem C5_normalized_sum (res : SimResult) (hwf : res.Wellformed) (t : Nat)
    (ht : t < res.t.length)
    (hS : (colSums res.N).getD t 0 ≠ 0) :
    (∀ cs, cs < res.N.length →
      normY res cs t =
        FVal.fin (((res.N.getD cs []).getD t 0) / (colSums res.N).getD t 0)) ∧
    (res.N.map (fun row => row.getD t 0 / (colSums res.N).getD t 0)).sum = 1 := by
  have hne : res.N ≠ [] := by
    intro h
    apply hS
    rw [h]
    rfl
  have hcol : (colSums res.N).getD t 0 = (res.N.map (fun row => row.getD t 0)).sum :=
    colSums_getD res.N t (by rw [numSteps_eq res hwf hne]; exact ht)
  constructor
  · intro cs hcs
    rw [normY_eq res hwf hcs ht]
    unfold fdiv
    rw [if_neg hS]
  · rw [sum_map_div res.N (fun row => row.getD t 0) _, ← hcol, div_self hS]

/-- C5, witness. -/
theorem C5_normalized_sum_witness :
    (resPos.Wellformed ∧ 0 < resPos.t.length ∧ (colSums resPos.N).getD 0 0 ≠ 0) ∧
    ((∀ cs, cs < resPos.N.length →
      normY resPos cs 0 =
        FVal.fin (((resPos.N.getD cs []).getD 0 0) / (colSums resPos.N).getD 0 0)) ∧
    (resPos.N.map (fun row => row.getD 0 0 / (colSums resPos.N).getD 0 0)).sum = 1) :=
  ⟨⟨by decide, by decide, by norm_num [resPos, colSums, numSteps, List.range_succ]⟩,
    C5_normalized_sum resPos (by decide) 0 (by decide)
      (by norm_num [resPos, colSums, numSteps, List.range_succ])⟩

/-! ### Claims C7, C9: the Peak-Time Extractor (`np.argmax`) -/

theorem argmaxGo_lt (rest : List ℚ) : ∀ (bi i : Nat) (best : ℚ), bi < i →
    argmaxGo bi best i rest < i + rest.length := by
  induction rest with
  | nil =>
    intro bi i best h
    simpa [argmaxGo] using h
  | cons v r ih =>
    intro bi i best h
    unfold argmaxGo
    split_ifs
    · have := ih i (i + 1) v (Nat.lt_succ_self i)
      simp only [List.length_cons]
      omega
    · have := ih bi (i + 1) best (Nat.lt_succ_of_lt h)
      simp only [List.length_cons]
      omega

theorem argmaxGo_of_le (rest : List ℚ) : ∀ (bi i : Nat) (best : ℚ),
    (∀ v ∈ rest, v ≤ best) → argmaxGo bi best i rest = bi := by
  induction rest with
  | nil => intro bi i best _; rfl
  | cons v r ih =>
    intro bi i best hle
    have hv : v ≤ best := hle v (List.mem_cons_self _ _)
    unfold argmaxGo
    rw [if_neg (not_lt.mpr hv)]
    exact ih bi (i + 1) best (fun u hu => hle u (List.mem_cons_of_mem _ hu))

theorem argmaxGo_first_max (rest : List ℚ) : ∀ (bi i : Nat) (best : ℚ)
    (j : Nat) (hj : j < rest.length),
    best < rest.get ⟨j, hj⟩ →
    (∀ m (hm : m < rest.length), rest.get ⟨m, hm⟩ ≤ rest.get ⟨j, hj⟩) →
    (∀ m (hm : m < j), rest.get ⟨m, Nat.lt_trans hm hj⟩ < rest.get ⟨j, hj⟩) →
    argmaxGo bi best i rest = i + j := by
  induction rest with
  | nil => intro bi i best j hj; simp at hj
  | cons v r ih =>
    intro bi i best j hj hbest hmax hfirst
    cases j with
    | zero =>
      simp only [List.get] at hbest hmax
      unfold argmaxGo
      rw [if_pos hbest]
      rw [argmaxGo_of_le r i (i + 1) v
        (fun u hu => by
          obtain ⟨⟨m, hm⟩, rfl⟩ := List.mem_iff_get.mp hu
          have := hmax (m + 1) (by simpa using Nat.succ_lt_succ hm)
          simpa using this)]
      omega
    | succ j' =>
      have hj' : j' < r.length := by simpa using Nat.lt_of_succ_lt_succ (by simpa using hj)
      have hv : v < (v :: r).get ⟨j' + 1, hj⟩ := hfirst 0 (Nat.succ_pos j')
      have hget : (v :: r).get ⟨j' + 1, hj⟩ = r.get ⟨j', hj'⟩ := by
        simp [List.get_cons_succ]
      unfold argmaxGo
      have hmax' : ∀ m (hm : m < r.length), r.get ⟨m, hm⟩ ≤ r.get ⟨j', hj'⟩ := by
        intro m hm
        have := hmax (m + 1) (by simpa using Nat.succ_lt_succ hm)
        rw [hget] at this
        simpa [List.get_cons_succ] using this
      have hfirst' : ∀ m (hm : m < j'), r.get ⟨m, Nat.lt_trans hm hj'⟩ < r.get ⟨j', hj'⟩ := by
        intro m hm
        have := hfirst (m + 1) (Nat.succ_lt_succ hm)
        rw [hget] at this
        simpa [List.get_cons_succ] using this
      split_ifs with hbv
      · have := ih i (i + 1) v j' hj' (by rw [← hget]; exact hv) hmax' hfirst'
        rw [this]
        omega
      · have hbv' : best < r.get ⟨j', hj'⟩ := by
          rw [← hget]
          exact hbest
        have := ih bi (i + 1) best j' hj' hbv' hmax' hfirst'
        rw [this]
        omega

/-- Every nonempty rational list has a first index attaining its maximum. -/
theorem exists_first_max : ∀ (l : List ℚ), l ≠ [] → ∃ (j : Nat) (hj : j < l.length),
    (∀ m (hm : m < l.length), l.get ⟨m, hm⟩ ≤ l.get ⟨j, hj⟩) ∧
    (∀ m (hm : m < j), l.get ⟨m, Nat.lt_trans hm hj⟩ < l.get ⟨j, hj⟩) := by
  intro l
  induction l with
  | nil => intro h; exact absurd rfl h
  | cons v r ih =>
    intro _
    rcases eq_or_ne r [] with hr | hr
    · subst hr
      refine ⟨0, Nat.one_pos, fun m hm => ?_, fun m hm => by omega⟩
      have hm0 : m = 0 := by
        simp only [List.length_cons, List.length_nil] at hm
        omega
      subst hm0
      simp
    · obtain ⟨j', hj', hmax', hfirst'⟩ := ih hr
      by_cases hv : r.get ⟨j', hj'⟩ ≤ v
      · refine ⟨0, Nat.succ_pos _, fun m hm => ?_, fun m hm => by omega⟩
        cases m with
        | zero => exact le_refl _
        | succ m =>
          have hm' : m < r.length := by simpa using Nat.lt_of_succ_lt_succ hm
          simp only [List.get_cons_succ, List.get_cons_zero]
          exact le_trans (hmax' m hm') hv
      · refine ⟨j' + 1, by simpa using Nat.succ_lt_succ hj', fun m hm => ?_, fun m hm => ?_⟩
        · cases m with
          | zero =>
            simp only [List.get_cons_zero, List.get_cons_succ]
            exact le_of_lt (not_le.mp hv)
          | succ m =>
            have hm' : m < r.length := by simpa using Nat.lt_of_succ_lt_succ hm
            simp only [List.get_cons_succ]
            exact hmax' m hm'
        · cases m with
          | zero =>
            simp only [List.get_cons_zero, List.get_cons_succ]
            exact not_le.mp hv
          | succ m =>
            have hm' : m < j' := Nat.lt_of_succ_lt_succ hm
            simp only [List.get_cons_succ]
            exact hfirst' m hm'

/-- C7: on a non-empty series the Peak-Time Extractor `t[np.argmax(N)]`
returns the `x` value at an index `i` where `y` is maximal, and `i` is
the first (lowest) index attaining the maximum (np.argmax replaces its
running maximum only on a strictly greater value). -/
theorem C7_peak_first_max (x y : List ℚ) (hne : y ≠ []) (hlen : x.length = y.length) :
    ∃ (i : Nat) (hi : i < y.length) (hxi : i < x.length),
      (∀ j (hj : j < y.length), y.get ⟨j, hj⟩ ≤ y.get ⟨i, hi⟩) ∧
      (∀ j (hj : j < i), y.get ⟨j, Nat.lt_trans hj hi⟩ < y.get ⟨i, hi⟩) ∧
      peakTime x y = some (x.get ⟨i, hxi⟩) := by
  obtain ⟨j, hj, hmax, hfirst⟩ := exists_first_max y hne
  have hxj : j < x.length := by rw [hlen]; exact hj
  refine ⟨j, hj, hxj, hmax, hfirst, ?_⟩
  cases y with
  | nil => exact absurd rfl hne
  | cons v r =>
    have hidx : argmaxGo 0 v 1 r = j := by
      cases j with
      | zero =>
        apply argmaxGo_of_le
        intro u hu
        obtain ⟨⟨m, hm⟩, rfl⟩ := List.mem_iff_get.mp hu
        have := hmax (m + 1) (by simpa using Nat.succ_lt_succ hm)
        simpa using this
      | succ j' =>
        have hj' : j' < r.length := by simpa using Nat.lt_of_succ_lt_succ hj
        have hv : v < r.get ⟨j', hj'⟩ := by
          have := hfirst 0 (Nat.succ_pos j')
          simpa using this
        have hmax' : ∀ m (hm : m < r.length), r.get ⟨m, hm⟩ ≤ r.get ⟨j', hj'⟩ := by
          intro m hm
          have := hmax (m + 1) (by simpa using Nat.succ_lt_succ hm)
          simpa using this
        have hfirst' : ∀ m (hm : m < j'),
            r.get ⟨m, Nat.lt_trans hm hj'⟩ < r.get ⟨j', hj'⟩ := by
          intro m hm
          have := hfirst (m + 1) (Nat.succ_lt_succ hm)
          simpa using this
        rw [argmaxGo_first_max r 0 1 v j' hj' hv hmax' hfirst']
        omega
    show (np_argmax (v :: r)).bind (fun i => x.get? i) = _
    unfold np_argmax
    simp only [Option.bind_some]
    rw [hidx]
    exact List.get?_eq_get hxj

/-- C7, witness: the claim's own tie-break scenario — the maximum 9 is
attained at indices 2 and 5; the extractor returns the time at index 2. -/
theorem C7_peak_first_max_witness :
    (([0, 1, 9, 4, 3, 9] : List ℚ) ≠ [] ∧
      ([10, 20, 30, 40, 50, 60] : List ℚ).length = ([0, 1, 9, 4, 3, 9] : List ℚ).length) ∧
    (∃ (i : Nat) (hi : i < ([0, 1, 9, 4, 3, 9] : List ℚ).length)
        (hxi : i < ([10, 20, 30, 40, 50, 60] : List ℚ).length),
      (∀ j (hj : j < ([0, 1, 9, 4, 3, 9] : List ℚ).length),
        ([0, 1, 9, 4, 3, 9] : List ℚ).get ⟨j, hj⟩ ≤ ([0, 1, 9, 4, 3, 9] : List ℚ).get ⟨i, hi⟩) ∧
      (∀ j (hj : j < i),
        ([0, 1, 9, 4, 3, 9] : List ℚ).get ⟨j, Nat.lt_trans hj hi⟩ <
          ([0, 1, 9, 4, 3, 9] : List ℚ).get ⟨i, hi⟩) ∧
      peakTime [10, 20, 30, 40, 50, 60] [0, 1, 9, 4, 3, 9] =
        some (([10, 20, 30, 40, 50, 60] : List ℚ).get ⟨i, hxi⟩)) :=
  ⟨⟨by decide, by decide⟩,
    C7_peak_first_max [10, 20, 30, 40, 50, 60] [0, 1, 9, 4, 3, 9] (by decide) (by decide)⟩

/-- C9: the Peak-Time Extractor on an empty series fails (np.argmax
raises on an empty array, modelled as `none`; the spec's taxonomy names
this failure `EmptySeriesError`), and on every non-empty series (with
matching coordinate lengths) it is a total deterministic function that
produces a value and raises nothing. -/
theorem C9_empty_series :
    (∀ x : List ℚ, peakTime x [] = none) ∧
    (∀ (x y : List ℚ), y ≠ [] → x.length = y.length → ∃ v, peakTime x y = some v) := by
  constructor
  · intro x
    rfl
  · intro x y hne hlen
    cases y with
    | nil => exact absurd rfl hne
    | cons v r =>
      have hb : argmaxGo 0 v 1 r < 1 + r.length := argmaxGo_lt r 0 1 v Nat.one_pos
      have hx : argmaxGo 0 v 1 r < x.length := by
        rw [hlen]
        simp only [List.length_cons]
        omega
      refine ⟨x.get ⟨argmaxGo 0 v 1 r, hx⟩, ?_⟩
      show (np_argmax (v :: r)).bind (fun i => x.get? i) = _
      unfold np_argmax
      simp only [Option.bind_some]
      exact List.get?_eq_get hx

/-- C9, witness. -/
theorem C9_empty_series_witness :
    (([1, 2] : List ℚ) ≠ [] ∧ ([10, 20] : List ℚ).length = ([1, 2] : List ℚ).length) ∧
    (peakTime [10, 20] [] = none ∧ ∃ v, peakTime [10, 20] [1, 2] = some v) :=
  ⟨⟨by decide, by decide⟩,
    C9_empty_series.1 [10, 20], C9_empty_series.2 [10, 20] [1, 2] (by decide) (by decide)⟩

/-! ### Claim C6: the Temporal Slice Interpolator (`np.interp`) -/

theorem interpFrom_low (t x0 y0 : ℚ) (rest : List (ℚ × ℚ)) (h : t ≤ x0) :
    interpFrom t x0 y0 rest = y0 := by
  cases rest with
  | nil => rfl
  | cons p r =>
    obtain ⟨x1, y1⟩ := p
    unfold interpFrom
    rw [if_pos h]

theorem interpFrom_last (t : ℚ) : ∀ (rest : List (ℚ × ℚ)) (x0 y0 : ℚ),
    (∀ p ∈ rest, p.1 < t) → x0 < t →
    interpFrom t x0 y0 rest = (((x0, y0) :: rest).getLast (List.cons_ne_nil _ _)).2 := by
  intro rest
  induction rest with
  | nil =>
    intro x0 y0 _ _
    rfl
  | cons p r ih =>
    intro x0 y0 hmem h0
    obtain ⟨x1, y1⟩ := p
    have h1 : x1 < t := hmem (x1, y1) (List.mem_cons_self _ _)
    unfold interpFrom
    rw [if_neg (not_le.mpr h0), if_neg (not_le.mpr h1)]
    rw [ih x1 y1 (fun p hp => hmem p (List.mem_cons_of_mem _ hp)) h1]
    rw [List.getLast_cons (List.cons_ne_nil _ _)]

/-- Under a strictly increasing first coordinate, the first coordinates
are monotone in the index. -/
theorem getD1_mono (l : List (ℚ × ℚ))
    (mono : ∀ m, m + 1 < l.length → (l.getD m (0, 0)).1 < (l.getD (m + 1) (0, 0)).1) :
    ∀ m n, m ≤ n → n < l.length → (l.getD m (0, 0)).1 ≤ (l.getD n (0, 0)).1 := by
  intro m n hmn
  induction hmn with
  | refl => intro _; exact le_refl _
  | @step k h ih =>
    intro hn
    have hk : k < l.length := Nat.lt_of_succ_lt hn
    exact le_trans (ih hk) (le_of_lt (mono k hn))

theorem interpFrom_bracket (t : ℚ) : ∀ (rest : List (ℚ × ℚ)) (x0 y0 : ℚ) (i : Nat),
    i + 1 < rest.length + 1 →
    (∀ m, m + 1 < rest.length + 1 →
      (((x0, y0) :: rest).getD m (0, 0)).1 < (((x0, y0) :: rest).getD (m + 1) (0, 0)).1) →
    (((x0, y0) :: rest).getD i (0, 0)).1 ≤ t →
    t ≤ (((x0, y0) :: rest).getD (i + 1) (0, 0)).1 →
    interpFrom t x0 y0 rest =
      (((x0, y0) :: rest).getD i (0, 0)).2 +
        (t - (((x0, y0) :: rest).getD i (0, 0)).1) *
          ((((x0, y0) :: rest).getD (i + 1) (0, 0)).2 - (((x0, y0) :: rest).getD i (0, 0)).2) /
          ((((x0, y0) :: rest).getD (i + 1) (0, 0)).1 - (((x0, y0) :: rest).getD i (0, 0)).1) := by
  intro rest
  induction rest with
  | nil =>
    intro x0 y0 i hi
    simp at hi
  | cons p r ih =>
    intro x0 y0 i hi mono hlow hhigh
    obtain ⟨x1, y1⟩ := p
    have h01 : x0 < x1 := by
      have := mono 0 (by simp)
      simpa using this
    cases i with
    | zero =>
      simp only [List.getD_cons_zero, List.getD_cons_succ] at hlow hhigh ⊢
      unfold interpFrom
      by_cases h0 : t ≤ x0
      · rw [if_pos h0]
        have ht0 : t = x0 := le_antisymm h0 hlow
        rw [ht0]
        simp
      · rw [if_neg h0, if_pos hhigh]
    | succ i' =>
      simp only [List.getD_cons_succ] at hlow hhigh ⊢
      have hi' : i' + 1 < r.length + 1 := by
        simp only [List.length_cons] at hi
        omega
      have mono' : ∀ m, m + 1 < r.length + 1 →
          (((x1, y1) :: r).getD m (0, 0)).1 < (((x1, y1) :: r).getD (m + 1) (0, 0)).1 := by
        intro m hm
        have := mono (m + 1) (by simpa using Nat.succ_lt_succ hm)
        simpa using this
      have hx1le : x1 ≤ (((x1, y1) :: r).getD i' (0, 0)).1 := by
        have := getD1_mono ((x1, y1) :: r) mono' 0 i' (Nat.zero_le _)
          (by simpa using Nat.lt_of_succ_lt hi')
        simpa using this
      have h0t : ¬ t ≤ x0 := not_le.mpr (lt_of_lt_of_le h01 (le_trans hx1le hlow))
      unfold interpFrom
      rw [if_neg h0t]
      by_cases h1 : t ≤ x1
      · have ht1 : t = x1 := le_antisymm h1 (le_trans hx1le hlow)
        have hieq : i' = 0 := by
          by_contra hne0
          have h1i : 1 ≤ i' := Nat.one_le_iff_ne_zero.mpr hne0
          have hstep : (((x1, y1) :: r).getD 0 (0, 0)).1 < (((x1, y1) :: r).getD 1 (0, 0)).1 :=
            mono' 0 (by omega)
          have hchain : (((x1, y1) :: r).getD 1 (0, 0)).1 ≤ (((x1, y1) :: r).getD i' (0, 0)).1 :=
            getD1_mono ((x1, y1) :: r) mono' 1 i' h1i (by simpa using Nat.lt_of_succ_lt hi')
          have : x1 < x1 := by
            calc x1 = (((x1, y1) :: r).getD 0 (0, 0)).1 := by simp
              _ < (((x1, y1) :: r).getD 1 (0, 0)).1 := hstep
              _ ≤ (((x1, y1) :: r).getD i' (0, 0)).1 := hchain
              _ ≤ t := hlow
              _ ≤ x1 := h1
          exact lt_irrefl _ this
        subst hieq
        rw [if_pos h1]
        simp only [List.getD_cons_zero, List.getD_cons_succ] at hhigh ⊢
        rw [ht1]
        have hd : x1 - x0 ≠ 0 := sub_ne_zero.mpr (ne_of_gt h01)
        rw [mul_div_cancel_left₀ _ hd]
        simp
      · rw [if_neg h1]
        have hlow' : (((x1, y1) :: r).getD i' (0, 0)).1 ≤ t := hlow
        exact ih x1 y1 i' hi' mono' hlow' hhigh

/-- `getD` through a zip of two rational lists. -/
theorem zip_getD (as bs : List ℚ) (i : Nat) (ha : i < as.length) (hb : i < bs.length) :
    (as.zip bs).getD i (0, 0) = (as.getD i 0, bs.getD i 0) :=
  zipWith_getD Prod.mk as bs i 0 0 (0, 0) ha hb

/-- C6: on a non-empty sample list with strictly increasing `x`,
`np.interp` clamps low (`t` below `x[0]` gives `y[0]`), clamps high (`t`
above `x[-1]` gives `y[-1]`), and between any bracketing pair of samples
returns the linear interpolant; it never extrapolates beyond the
endpoints. -/
theorem C6_interp_clamp (xp fp : List ℚ) (hne : xp ≠ []) (hlen : xp.length = fp.length)
    (hmono : ∀ m, m + 1 < xp.length → xp.getD m 0 < xp.getD (m + 1) 0) (t : ℚ) :
    (t < xp.getD 0 0 → np_interp t xp fp = some (fp.getD 0 0)) ∧
    (xp.getD (xp.length - 1) 0 < t →
      np_interp t xp fp = some (fp.getD (fp.length - 1) 0)) ∧
    (∀ i, i + 1 < xp.length → xp.getD i 0 ≤ t → t ≤ xp.getD (i + 1) 0 →
      np_interp t xp fp = some (fp.getD i 0 +
        (t - xp.getD i 0) * (fp.getD (i + 1) 0 - fp.getD i 0) /
          (xp.getD (i + 1) 0 - xp.getD i 0))) := by
  have hxlen : 0 < xp.length := List.length_pos.mpr hne
  have hzlen : (xp.zip fp).length = xp.length := by
    rw [List.length_zip, hlen, Nat.min_self]
  rcases hz : xp.zip fp with _ | ⟨⟨x0, y0⟩, rest⟩
  · rw [hz] at hzlen
    simp at hzlen
    omega
  have hnp : np_interp t xp fp = some (interpFrom t x0 y0 rest) := by
    unfold np_interp
    rw [if_pos hlen, hz]
  have hLlen : rest.length + 1 = xp.length := by
    rw [← hzlen, hz]
    simp
  have hgetL : ∀ i, i < xp.length →
      ((x0, y0) :: rest).getD i (0, 0) = (xp.getD i 0, fp.getD i 0) := by
    intro i hi
    rw [← hz]
    exact zip_getD xp fp i hi (hlen ▸ hi)
  have monoL : ∀ m, m + 1 < rest.length + 1 →
      (((x0, y0) :: rest).getD m (0, 0)).1 < (((x0, y0) :: rest).getD (m + 1) (0, 0)).1 := by
    intro m hm
    have hm' : m + 1 < xp.length := hLlen ▸ hm
    rw [hgetL m (Nat.lt_of_succ_lt hm'), hgetL (m + 1) hm']
    exact hmono m hm'
  have hp0 : x0 = xp.getD 0 0 ∧ y0 = fp.getD 0 0 := by
    have hp := hgetL 0 hxlen
    simp only [List.getD_cons_zero] at hp
    exact ⟨congrArg Prod.fst hp, congrArg Prod.snd hp⟩
  refine ⟨?_, ?_, ?_⟩
  · intro h0
    rw [hnp, interpFrom_low t x0 y0 rest (le_of_lt (hp0.1 ▸ h0)), hp0.2]
  · intro hlast
    have hlast' : (((x0, y0) :: rest).getD (xp.length - 1) (0, 0)).1 < t := by
      rw [hgetL (xp.length - 1) (by omega)]
      exact hlast
    have hmem : ∀ p ∈ rest, p.1 < t := by
      intro p hp
      obtain ⟨⟨m, hm⟩, rfl⟩ := List.mem_iff_get.mp hp
      have hmx : m + 1 < xp.length := by omega
      have hrw : rest.get ⟨m, hm⟩ = ((x0, y0) :: rest).getD (m + 1) (0, 0) := by
        rw [List.getD_cons_succ, List.getD_eq_getElem _ _ hm, List.get_eq_getElem]
      rw [hrw]
      calc (((x0, y0) :: rest).getD (m + 1) (0, 0)).1
          ≤ (((x0, y0) :: rest).getD (xp.length - 1) (0, 0)).1 :=
            getD1_mono ((x0, y0) :: rest) monoL (m + 1) (xp.length - 1) (by omega)
              (by simp only [List.length_cons]; omega)
        _ < t := hlast'
    have hx0t : x0 < t := by
      have : (((x0, y0) :: rest).getD 0 (0, 0)).1 ≤
          (((x0, y0) :: rest).getD (xp.length - 1) (0, 0)).1 :=
        getD1_mono ((x0, y0) :: rest) monoL 0 (xp.length - 1) (Nat.zero_le _)
          (by simp only [List.length_cons]; omega)
      simp only [List.getD_cons_zero] at this
      exact lt_of_le_of_lt this hlast'
    rw [hnp, interpFrom_last t rest x0 y0 hmem hx0t]
    have hgl : ((x0, y0) :: rest).getLast (List.cons_ne_nil _ _) =
        ((x0, y0) :: rest).getD (xp.length - 1) (0, 0) := by
      rw [List.getLast_eq_getElem,
        List.getD_eq_getElem _ _ (by simp only [List.length_cons]; omega)]
      congr 1
      simp only [List.length_cons]
      omega
    rw [hgl, hgetL (xp.length - 1) (by omega)]
    have hfp : fp.length - 1 = xp.length - 1 := by rw [hlen]
    rw [hfp]
  · intro i hi hl hh
    have hiL : i + 1 < rest.length + 1 := by omega
    have hlowL : (((x0, y0) :: rest).getD i (0, 0)).1 ≤ t := by
      rw [hgetL i (Nat.lt_of_succ_lt hi)]
      exact hl
    have hhighL : t ≤ (((x0, y0) :: rest).getD (i + 1) (0, 0)).1 := by
      rw [hgetL (i + 1) hi]
      exact hh
    rw [hnp, interpFrom_bracket t rest x0 y0 i hiL monoL hlowL hhighL,
      hgetL i (Nat.lt_of_succ_lt hi), hgetL (i + 1) hi]

/-- C6, witness: on the series `x = [0, 2]`, `y = [0, 10]` the
interpolator clamps to 0 below, clamps to 10 above, and gives the exact
interpolant 5 at `t = 1`. -/
theorem C6_interp_clamp_witness :
    (([0, 2] : List ℚ) ≠ [] ∧ ([0, 2] : List ℚ).length = ([0, 10] : List ℚ).length ∧
      (∀ m, m + 1 < ([0, 2] : List ℚ).length →
        ([0, 2] : List ℚ).getD m 0 < ([0, 2] : List ℚ).getD (m + 1) 0)) ∧
    np_interp (-1) [0, 2] [0, 10] = some 0 ∧
    np_interp 3 [0, 2] [0, 10] = some 10 ∧
    np_interp 1 [0, 2] [0, 10] = some 5 := by
  have hmono : ∀ m, m + 1 < ([0, 2] : List ℚ).length →
      ([0, 2] : List ℚ).getD m 0 < ([0, 2] : List ℚ).getD (m + 1) 0 := by
    intro m hm
    have hm0 : m = 0 := by
      simp only [List.length_cons, List.length_nil] at hm
      omega
    subst hm0
    norm_num
  refine ⟨⟨by decide, by decide, hmono⟩, ?_, ?_, ?_⟩
  · have h := (C6_interp_clamp [0, 2] [0, 10] (by decide) (by decide) hmono (-1)).1
      (by norm_num)
    exact h
  · have h := (C6_interp_clamp [0, 2] [0, 10] (by decide) (by decide) hmono 3).2.1
      (by norm_num)
    exact h
  · have h := (C6_interp_clamp [0, 2] [0, 10] (by decide) (by decide) hmono 1).2.2 0
      (by decide) (by norm_num) (by norm_num)
    rw [h]
    norm_num

/-! ### Claim C3: concurrent duplicate requests -/

theorem pcWeight_le_one {V : Type} (pc : ThreadPC V) : pcWeight pc ≤ 1 := by
  cases pc <;> simp [pcWeight]

theorem stepOn_invar {V : Type} (f : Unit → V) (s : ConcState V) (tid : Bool)
    (h : s.count ≤ pcWeight s.pc0 + pcWeight s.pc1) :
    (stepOn f s tid).count ≤
      pcWeight (stepOn f s tid).pc0 + pcWeight (stepOn f s tid).pc1 := by
  obtain ⟨cache, pc0, pc1, count⟩ := s
  cases tid <;> cases pc0 <;> cases pc1 <;> cases cache <;>
    simp [stepOn, threadStep, pcWeight] at * <;> omega

theorem runSched_count_le {V : Type} (f : Unit → V) : ∀ (sched : List Bool)
    (s : ConcState V), s.count ≤ pcWeight s.pc0 + pcWeight s.pc1 →
    (runSched f sched s).count ≤ 2 := by
  intro sched
  induction sched with
  | nil =>
    intro s h
    calc (runSched f [] s).count = s.count := rfl
      _ ≤ pcWeight s.pc0 + pcWeight s.pc1 := h
      _ ≤ 2 := Nat.add_le_add (pcWeight_le_one _) (pcWeight_le_one _)
  | cons tid rest ih =>
    intro s h
    exact ih (stepOn f s tid) (stepOn_invar f s tid h)

theorem runSched_true_only {V : Type} (f : Unit → V) : ∀ (sched : List Bool),
    (∀ b ∈ sched, b = true) → ∀ (v : V) (pc0 pc1 : ThreadPC V) (n : Nat),
    (pc1 = ThreadPC.start ∨ ∃ u, pc1 = ThreadPC.done u) →
    (runSched f sched ⟨some v, pc0, pc1, n⟩).count = n := by
  intro sched
  induction sched with
  | nil =>
    intro _ v pc0 pc1 n _
    rfl
  | cons b rest ih =>
    intro hall v pc0 pc1 n hpc1
    have hb : b = true := hall b (List.mem_cons_self _ _)
    subst hb
    have htail : ∀ x ∈ rest, x = true := fun x hx => hall x (List.mem_cons_of_mem _ hx)
    rcases hpc1 with h | ⟨u, h⟩ <;> subst h
    · show (runSched f rest (stepOn f ⟨some v, pc0, ThreadPC.start, n⟩ true)).count = n
      rw [show stepOn f ⟨some v, pc0, ThreadPC.start, n⟩ true =
        ⟨some v, pc0, ThreadPC.done v, n⟩ from rfl]
      exact ih htail v pc0 _ n (Or.inr ⟨v, rfl⟩)
    · show (runSched f rest (stepOn f ⟨some v, pc0, ThreadPC.done u, n⟩ true)).count = n
      rw [show stepOn f ⟨some v, pc0, ThreadPC.done u, n⟩ true =
        ⟨some v, pc0, ThreadPC.done u, n⟩ from rfl]
      exact ih htail v pc0 _ n (Or.inr ⟨u, rfl⟩)

/-- C3, counterexample.  The claim says two concurrent invocations with
the same key execute the underlying computation exactly once, the second
caller awaiting the first's result.  In the interleaving that
`functools.lru_cache` permits (both threads look the key up before either
has computed — the wrapped call runs outside any lock and there is no
per-key in-flight marker), both threads run the computation: the final
count is 2, not 1, with both threads completed. -/
theorem C3_counterexample :
    runSched (fun _ => (1 : Nat)) [false, true, false, true] concInit =
      ⟨some 1, ThreadPC.done 1, ThreadPC.done 1, 2⟩ := by
  rfl

/-- C3, amended.  What does hold for the plain memoizing decorator: two
concurrent duplicate requests execute the underlying computation at most
twice (each caller at most once), and exactly once when the calls do not
overlap — a second caller that starts after the first has completed hits
the cache and computes nothing. -/
theorem C3_no_per_key_locking {V : Type} (f : Unit → V) :
    (∀ sched : List Bool, (runSched f sched concInit).count ≤ 2) ∧
    (∀ sched : List Bool, (∀ b ∈ sched, b = true) →
      (runSched f sched (runSched f [false, false] concInit)).count = 1) := by
  constructor
  · intro sched
    exact runSched_count_le f sched concInit (by simp [concInit, pcWeight])
  · intro sched hall
    rw [show runSched f [false, false] concInit =
      ⟨some (f ()), ThreadPC.done (f ()), ThreadPC.start, 1⟩ from rfl]
    exact runSched_true_only f sched hall (f ()) _ _ 1 (Or.inl rfl)

/-- C3, witness for the amended claim. -/
theorem C3_no_per_key_locking_witness :
    (∀ b ∈ [true], b = true) ∧
    ((runSched (fun _ => (7 : Nat)) [false, true, false] concInit).count ≤ 2 ∧
      (runSched (fun _ => (7 : Nat)) [true]
        (runSched (fun _ => (7 : Nat)) [false, false] concInit)).count = 1) :=
  ⟨by decide,
    (C3_no_per_key_locking (fun _ => (7 : Nat))).1 [false, true, false],
    (C3_no_per_key_locking (fun _ => (7 : Nat))).2 [true] (by decide)⟩

/-! ### Claim C1: the memoized invoker -/

theorem cacheFind_cons_self {K V : Type} [DecidableEq K] (l : List (K × V)) (k : K) (v : V) :
    cacheFind ((k, v) :: l) k = some v := by
  simp [cacheFind]

theorem cacheFind_cons_ne {K V : Type} [DecidableEq K] (l : List (K × V)) {k k' : K}
    (v : V) (h : k' ≠ k) : cacheFind ((k', v) :: l) k = cacheFind l k := by
  simp [cacheFind, h]

theorem cacheFind_mem_keys {K V : Type} [DecidableEq K] {c : List (K × V)} {k : K} {v : V}
    (h : cacheFind c k = some v) : k ∈ c.map Prod.fst :=
  List.mem_map.mpr ⟨(k, v), cacheFind_mem h, rfl⟩

theorem key_not_mem_erase {K V : Type} [DecidableEq K] (c : List (K × V)) (k : K) :
    k ∉ (cacheErase c k).map Prod.fst := by
  intro h
  obtain ⟨p, hp, hpk⟩ := List.mem_map.mp h
  have := (List.mem_filter.mp hp).2
  simp [hpk] at this

theorem erase_keys_subset {K V : Type} [DecidableEq K] (c : List (K × V)) (k : K) :
    ∀ x ∈ (cacheErase c k).map Prod.fst, x ∈ c.map Prod.fst := by
  intro x hx
  obtain ⟨p, hp, hpk⟩ := List.mem_map.mp hx
  exact List.mem_map.mpr ⟨p, (List.mem_filter.mp hp).1, hpk⟩

theorem erase_keys_nodup {K V : Type} [DecidableEq K] (c : List (K × V)) (k : K)
    (h : (c.map Prod.fst).Nodup) : ((cacheErase c k).map Prod.fst).Nodup :=
  List.Nodup.sublist (List.Sublist.map _ (List.filter_sublist c)) h

/-- Definitional unfolding of one step of `lruRun`. -/
theorem lruRun_cons {K V : Type} [DecidableEq K] (cap : Nat) (f : K → V)
    (k : K) (ks : List K) (c : List (K × V)) :
    lruRun cap f (k :: ks) c =
      match lruGet cap (exceptify f) c k with
      | (Except.error e, _, _) => e.elim
      | (Except.ok v, c', computed) =>
        ((lruRun cap f ks c').1,
          (if computed then k :: (lruRun cap f ks c').2.1 else (lruRun cap f ks c').2.1),
          v :: (lruRun cap f ks c').2.2) := by
  rfl

theorem lruRun_cons_hit {K V : Type} [DecidableEq K] (cap : Nat) (f : K → V)
    {k : K} (ks : List K) {c : List (K × V)} {v : V} (hfind : cacheFind c k = some v) :
    lruRun cap f (k :: ks) c =
      ((lruRun cap f ks ((k, v) :: cacheErase c k)).1,
        (lruRun cap f ks ((k, v) :: cacheErase c k)).2.1,
        v :: (lruRun cap f ks ((k, v) :: cacheErase c k)).2.2) := by
  rw [lruRun_cons, lruGet_hit cap (exceptify f) c k v hfind]
  rfl

theorem lruRun_cons_miss {K V : Type} [DecidableEq K] (cap : Nat) (f : K → V)
    {k : K} (ks : List K) {c : List (K × V)} (hfind : cacheFind c k = none) :
    lruRun cap f (k :: ks) c =
      ((lruRun cap f ks (((k, f k) :: c).take cap)).1,
        k :: (lruRun cap f ks (((k, f k) :: c).take cap)).2.1,
        f k :: (lruRun cap f ks (((k, f k) :: c).take cap)).2.2) := by
  rw [lruRun_cons, lruGet_miss_ok cap (exceptify f) c k (f k) hfind rfl]
  rfl

/-- Observational equivalence of the memoized invoker with the pure
underlying function: provided every cached value is the function's value
(true of every reachable cache), the values returned along any call
sequence are exactly the function's values. -/
theorem lruRun_outputs {K V : Type} [DecidableEq K] (cap : Nat) (f : K → V) :
    ∀ (ks : List K) (c : List (K × V)), (∀ p ∈ c, p.2 = f p.1) →
    (lruRun cap f ks c).2.2 = ks.map f := by
  intro ks
  induction ks with
  | nil => intro c _; rfl
  | cons k ks ih =>
    intro c hc
    cases hfind : cacheFind c k with
    | some v =>
      have hv : v = f k := hc (k, v) (cacheFind_mem hfind)
      rw [lruRun_cons_hit cap f ks hfind]
      have hc' : ∀ p ∈ (k, v) :: cacheErase c k, p.2 = f p.1 := by
        intro p hp
        rcases List.mem_cons.mp hp with h | h
        · rw [h, hv]
        · exact hc p (List.mem_of_mem_filter h)
      simp only [List.map_cons]
      rw [ih _ hc', hv]
    | none =>
      rw [lruRun_cons_miss cap f ks hfind]
      have hc' : ∀ p ∈ ((k, f k) :: c).take cap, p.2 = f p.1 := by
        intro p hp
        rcases List.mem_cons.mp (List.take_subset _ _ hp) with h | h
        · rw [h]
        · exact hc p h
      simp only [List.map_cons]
      rw [ih _ hc']

/-- A repeated call immediately after a call with the same key is a hit:
it returns the same outcome and does not execute the underlying
function. -/
theorem lruGet_twice {K V : Type} [DecidableEq K] (cap : Nat) (hcap : 1 ≤ cap)
    (f : K → V) (c : List (K × V)) (k : K) :
    (lruGet cap (exceptify f) ((lruGet cap (exceptify f) c k).2.1) k).1 =
      (lruGet cap (exceptify f) c k).1 ∧
    (lruGet cap (exceptify f) ((lruGet cap (exceptify f) c k).2.1) k).2.2 = false := by
  obtain ⟨m, rfl⟩ : ∃ m, cap = m + 1 := ⟨cap - 1, by omega⟩
  cases hfind : cacheFind c k with
  | some v =>
    rw [lruGet_hit (m + 1) (exceptify f) c k v hfind]
    rw [lruGet_hit (m + 1) (exceptify f) _ k v (cacheFind_cons_self _ k v)]
    exact ⟨rfl, rfl⟩
  | none =>
    rw [lruGet_miss_ok (m + 1) (exceptify f) c k (f k) hfind rfl]
    rw [List.take_succ_cons,
      lruGet_hit (m + 1) (exceptify f) _ k (f k) (cacheFind_cons_self _ k (f k))]
    exact ⟨rfl, rfl⟩

/-- As long as a call sequence touches at most `cap` distinct keys (cache
capacity never exceeded, so LRU eviction never fires), a key that is in
the cache is never recomputed, and every key's underlying computation
runs at most once. -/
theorem lruRun_count {K V : Type} [DecidableEq K] (cap : Nat) (f : K → V) :
    ∀ (ks : List K) (c : List (K × V)),
    (c.map Prod.fst).Nodup →
    ((c.map Prod.fst).toFinset ∪ ks.toFinset).card ≤ cap →
    (∀ k, cacheFind c k ≠ none → k ∉ (lruRun cap f ks c).2.1) ∧
    (∀ k, ((lruRun cap f ks c).2.1).count k ≤ 1) := by
  intro ks
  induction ks with
  | nil =>
    intro c _ _
    exact ⟨fun k _ => List.not_mem_nil k,
      fun k => by show List.count k ([] : List K) ≤ 1; simp⟩
  | cons k' ks ih =>
    intro c hnodup hcard
    cases hfind : cacheFind c k' with
    | some v =>
      have hstep : (lruRun cap f (k' :: ks) c).2.1 =
          (lruRun cap f ks ((k', v) :: cacheErase c k')).2.1 := by
        rw [lruRun_cons_hit cap f ks hfind]
      have hk'c : k' ∈ c.map Prod.fst := cacheFind_mem_keys hfind
      have hnodup' : (((k', v) :: cacheErase c k').map Prod.fst).Nodup := by
        simp only [List.map_cons, List.nodup_cons]
        exact ⟨key_not_mem_erase c k', erase_keys_nodup c k' hnodup⟩
      have hsub : (((k', v) :: cacheErase c k').map Prod.fst).toFinset ∪ ks.toFinset ⊆
          (c.map Prod.fst).toFinset ∪ (k' :: ks).toFinset := by
        intro x hx
        rcases Finset.mem_union.mp hx with hx | hx
        · simp only [List.map_cons, List.toFinset_cons, Finset.mem_insert] at hx
          rcases hx with rfl | hx
          · exact Finset.mem_union.mpr (Or.inl (List.mem_toFinset.mpr hk'c))
          · exact Finset.mem_union.mpr (Or.inl (List.mem_toFinset.mpr
              (erase_keys_subset c k' x (List.mem_toFinset.mp hx))))
        · exact Finset.mem_union.mpr (Or.inr (by
            simp only [List.toFinset_cons, Finset.mem_insert]
            exact Or.inr (by simpa using hx)))
      obtain ⟨ih1, ih2⟩ := ih ((k', v) :: cacheErase c k') hnodup'
        (le_trans (Finset.card_le_card hsub) hcard)
      refine ⟨?_, fun k => hstep ▸ ih2 k⟩
      intro k hk
      rw [hstep]
      by_cases hkk : k = k'
      · subst hkk
        exact ih1 k (by rw [cacheFind_cons_self]; exact Option.some_ne_none v)
      · refine ih1 k ?_
        rw [cacheFind_cons_ne _ v (fun h => hkk h.symm),
          cacheFind_cacheErase_ne c hkk]
        exact hk
    | none =>
      have hk'c : k' ∉ c.map Prod.fst := (cacheFind_eq_none c k').mp hfind
      have hlen : c.length + 1 ≤ cap := by
        have h1 : (c.map Prod.fst).toFinset.card = c.length := by
          rw [List.toFinset_card_of_nodup hnodup, List.length_map]
        have h2 : insert k' (c.map Prod.fst).toFinset ⊆
            (c.map Prod.fst).toFinset ∪ (k' :: ks).toFinset := by
          intro x hx
          rcases Finset.mem_insert.mp hx with rfl | hx
          · exact Finset.mem_union.mpr (Or.inr (by
              simp [List.toFinset_cons]))
          · exact Finset.mem_union.mpr (Or.inl hx)
        have h3 : (insert k' (c.map Prod.fst).toFinset).card =
            c.length + 1 := by
          rw [Finset.card_insert_of_not_mem (fun h => hk'c (List.mem_toFinset.mp h)), h1]
        calc c.length + 1 = (insert k' (c.map Prod.fst).toFinset).card := h3.symm
          _ ≤ ((c.map Prod.fst).toFinset ∪ (k' :: ks).toFinset).card :=
            Finset.card_le_card h2
          _ ≤ cap := hcard
      have htake : ((k', f k') :: c).take cap = (k', f k') :: c :=
        List.take_of_length_le (by simpa using hlen)
      have hstep : (lruRun cap f (k' :: ks) c).2.1 =
          k' :: (lruRun cap f ks ((k', f k') :: c)).2.1 := by
        rw [lruRun_cons_miss cap f ks hfind, htake]
      have hnodup' : (((k', f k') :: c).map Prod.fst).Nodup := by
        simp only [List.map_cons, List.nodup_cons]
        exact ⟨hk'c, hnodup⟩
      have hsub : (((k', f k') :: c).map Prod.fst).toFinset ∪ ks.toFinset ⊆
          (c.map Prod.fst).toFinset ∪ (k' :: ks).toFinset := by
        intro x hx
        rcases Finset.mem_union.mp hx with hx | hx
        · simp only [List.map_cons, List.toFinset_cons, Finset.mem_insert] at hx
          rcases hx with rfl | hx
          · exact Finset.mem_union.mpr (Or.inr (by simp [List.toFinset_cons]))
          · exact Finset.mem_union.mpr (Or.inl hx)
        · exact Finset.mem_union.mpr (Or.inr (by
            simp only [List.toFinset_cons, Finset.mem_insert]
            exact Or.inr (by simpa using hx)))
      obtain ⟨ih1, ih2⟩ := ih ((k', f k') :: c) hnodup'
        (le_trans (Finset.card_le_card hsub) hcard)
      have hnotrec : k' ∉ (lruRun cap f ks ((k', f k') :: c)).2.1 :=
        ih1 k' (by rw [cacheFind_cons_self]; exact Option.some_ne_none (f k'))
      constructor
      · intro k hk
        rw [hstep]
        have hkk : k ≠ k' := by
          intro h
          rw [h, hfind] at hk
          exact hk rfl
        intro hmem
        rcases List.mem_cons.mp hmem with h | h
        · exact hkk h
        · exact ih1 k (by rw [cacheFind_cons_ne _ (f k') (fun hh => hkk hh.symm)]; exact hk) h
      · intro k
        rw [hstep, List.count_cons]
        by_cases hkk : k' = k
        · subst hkk
          rw [List.count_eq_zero.mpr hnotrec]
          simp
        · have := ih2 k
          simp [hkk]
          omega

set_option maxRecDepth 10000 in
/-- C1, counterexample.  The claim asserts "at most one underlying
computation occurs per distinct parameter key".  The cache is bounded at
128 entries with LRU eviction (`lru_cache(maxsize=128)`), so after 129
distinct requests the first key has been evicted, and requesting it again
recomputes it: over the run of 130 calls below, the key `mkKey 0` is
computed twice. -/
theorem C1_counterexample :
    ((lruRun 128 trivSim ((List.range 129).map mkKey ++ [mkKey 0]) []).2.1).count
      (mkKey 0) = 2 := by
  decide

/-- C1, amended.  What does hold of `lru_cache(maxsize=128)`: (1) the
memoized invoker is observationally equivalent to the pure underlying
function (every reachable cache only stores the function's values, and a
run returns exactly the function's values); (2) a call immediately
following a call with the same key is a hit: same outcome, and the
underlying function is not executed a second time; (3) so long as a call
sequence touches at most 128 distinct keys — the cache capacity, so LRU
eviction never fires — every key's underlying computation runs at most
once.  (With more than 128 distinct keys, eviction can force a
recomputation: see the counterexample.) -/
theorem C1_memoized_invoker (f : SimKey → SimResult) :
    (∀ (ks : List SimKey) (c : List (SimKey × SimResult)),
      (∀ p ∈ c, p.2 = f p.1) → (lruRun 128 f ks c).2.2 = ks.map f) ∧
    (∀ (c : List (SimKey × SimResult)) (k : SimKey),
      (lruGet 128 (exceptify f) ((lruGet 128 (exceptify f) c k).2.1) k).1 =
        (lruGet 128 (exceptify f) c k).1 ∧
      (lruGet 128 (exceptify f) ((lruGet 128 (exceptify f) c k).2.1) k).2.2 = false) ∧
    (∀ ks : List SimKey, ks.toFinset.card ≤ 128 →
      ∀ k, ((lruRun 128 f ks []).2.1).count k ≤ 1) := by
  refine ⟨lruRun_outputs 128 f, fun c k => lruGet_twice 128 (by omega) f c k, ?_⟩
  intro ks hcard k
  refine (lruRun_count 128 f ks [] (by simp) ?_).2 k
  simpa using hcard

/-- C1, witness for the amended claim. -/
theorem C1_memoized_invoker_witness :
    (([mkKey 0, mkKey 0] : List SimKey).toFinset.card ≤ 128 ∧
      (∀ p ∈ ([] : List (SimKey × SimResult)), p.2 = trivSim p.1)) ∧
    ((lruRun 128 trivSim [mkKey 0, mkKey 0] []).2.2 =
        [mkKey 0, mkKey 0].map trivSim ∧
      ((lruRun 128 trivSim [mkKey 0, mkKey 0] []).2.1).count (mkKey 0) ≤ 1 ∧
      (lruGet 128 (exceptify trivSim)
          ((lruGet 128 (exceptify trivSim) [] (mkKey 0)).2.1) (mkKey 0)).2.2 = false) :=
  ⟨⟨by decide, by simp⟩,
    (C1_memoized_invoker trivSim).1 [mkKey 0, mkKey 0] [] (by simp),
    (C1_memoized_invoker trivSim).2.2 [mkKey 0, mkKey 0] (by decide) (mkKey 0),
    ((C1_memoized_invoker trivSim).2.1 [] (mkKey 0)).2⟩

end EbisimDash
